import Mathlib

/-!
# Verification of the makercode Tauri backend (`src-tauri/src/lib.rs`)

A shallow embedding of the file-tree and git commands of the makercode
backend, together with proofs about them.

The filesystem is modelled as a tree of directory entries.  Reading a
directory (`fs::read_dir`) yields a sequence of entry results; each result
either fails outright (`iterErr`, the `entry?` in the loop), fails at the
metadata read (`metaErr`, the `entry.metadata()?`), or is a file or a
directory.  A directory carries the outcome of reading it: `none` models a
failing `fs::read_dir`, `some es` a successful listing `es`.

Paths are modelled as lists of components; `Path::strip_prefix` becomes a
component-wise prefix strip, and the final string is assembled with `/` as
separator exactly as `format!("/{}", ...)` does after the backslash
replacement.
-/

/-- The `FileNode` struct serialised to the frontend.  The Rust field
`is_directory` is serde-renamed to `isDirectory`; `children` is
`Option<Vec<FileNode>>`. -/
inductive FileNode : Type where
  | mk (name : String) (path : String) (is_directory : Bool)
      (children : Option (List FileNode)) : FileNode
deriving Repr

def FileNode.name : FileNode → String
  | .mk n _ _ _ => n

def FileNode.path : FileNode → String
  | .mk _ p _ _ => p

def FileNode.is_directory : FileNode → Bool
  | .mk _ _ d _ => d

def FileNode.children : FileNode → Option (List FileNode)
  | .mk _ _ _ c => c

/-- `is_ignored`: the `matches!` in the Rust source, an exact name-equality
test against the fixed ignore set. -/
def is_ignored (name : String) : Bool :=
  name == "node_modules" || name == ".git" || name == "target" || name == "dist" ||
    name == "build" || name == ".maker" || name == "__pycache__" || name == "venv" ||
    name == ".vscode"

/-- The comparator passed to `sort_by` in `build_tree`: directories first,
then `String::cmp` on the names. -/
def nodeCmp (a b : FileNode) : Ordering :=
  match a.is_directory, b.is_directory with
  | true, false => Ordering.lt
  | false, true => Ordering.gt
  | _, _ => compare a.name b.name

/-- `nodeLe a b` holds when the comparator does not place `a` after `b`;
a stable sort by `nodeCmp` is exactly a stable sort by this `le`. -/
def nodeLe (a b : FileNode) : Bool :=
  !(nodeCmp a b == Ordering.gt)

/-- `Vec::sort_by` with `nodeCmp`: a stable sort, embedded as `mergeSort`
(also stable) with `nodeLe`. -/
def sortNodes (l : List FileNode) : List FileNode :=
  l.mergeSort nodeLe

/-- Component-wise `Path::strip_prefix`. -/
def stripRoot : List String → List String → Option (List String)
  | [], ys => some ys
  | _ :: _, [] => none
  | x :: xs, y :: ys => if x = y then stripRoot xs ys else none

/-- Joining path components with `/`, the separator the Rust code forces
(`replace("\\", "/")`). -/
def joinPath (comps : List String) : String :=
  String.intercalate "/" comps

/-- The `relative_path` computation in `build_tree`: strip the root prefix
and prepend `/`; on failure fall back to `/` + bare file name. -/
def relPath (rootBase pathBuf : List String) (fileName : String) : String :=
  match stripRoot rootBase pathBuf with
  | some rel => "/" ++ joinPath rel
  | none => "/" ++ fileName

/-- One result of the `fs::read_dir` iterator. -/
inductive Entry : Type where
  | iterErr : Entry
  | metaErr (name : String) : Entry
  | file (name : String) : Entry
  | dir (name : String) (listing : Option (List Entry)) : Entry
deriving Repr

mutual

/-- The body of the `for entry in entries` loop for one entry: propagate
iterator and metadata errors with `?`, otherwise build the node.  For a
directory, an ignored name gets empty children without recursion; otherwise
the recursive `build_tree` result is sorted on success and replaced by empty
children on failure. -/
def entryNode (rootBase cur : List String) : Entry → Except String FileNode
  | Entry.iterErr => Except.error "entry error"
  | Entry.metaErr _ => Except.error "metadata error"
  | Entry.file n =>
      Except.ok (FileNode.mk n (relPath rootBase (cur ++ [n]) n) false none)
  | Entry.dir n lst =>
      let children :=
        if is_ignored n then []
        else
          match buildDir rootBase (cur ++ [n]) lst with
          | Except.ok cs => sortNodes cs
          | Except.error _ => []
      Except.ok (FileNode.mk n (relPath rootBase (cur ++ [n]) n) true (some children))

/-- The `for` loop of `build_tree`: nodes are accumulated in entry order,
and the first iterator or metadata error aborts the call. -/
def processEntries (rootBase cur : List String) : List Entry → Except String (List FileNode)
  | [] => Except.ok []
  | e :: rest => do
      let node ← entryNode rootBase cur e
      let nodes ← processEntries rootBase cur rest
      pure (node :: nodes)

/-- `build_tree`: `fs::read_dir` (failure = `none`), the entry loop, then
the final `nodes.sort_by` before `Ok(nodes)`. -/
def buildDir (rootBase cur : List String) : Option (List Entry) → Except String (List FileNode)
  | none => Except.error "read_dir error"
  | some entries => do
      let nodes ← processEntries rootBase cur entries
      pure (sortNodes nodes)

end

/-- `get_project_tree`: reject a non-existent root, then `build_tree(root, root)`.
`ex` is whether `root_path.exists()`, `listing` the outcome of reading the
root directory. -/
def get_project_tree (root : List String) (ex : Bool)
    (listing : Option (List Entry)) : Except String (List FileNode) :=
  if ex = false then Except.error "Path does not exist"
  else buildDir root root listing

/-- An entry the loop aborts on: an iterator error or a metadata error. -/
def entryFails : Entry → Bool
  | Entry.iterErr => true
  | Entry.metaErr _ => true
  | Entry.file _ => false
  | Entry.dir _ _ => false

/-- Whether the listing contains an entry the loop aborts on. -/
def hasEntryFailure (l : List Entry) : Bool :=
  l.any entryFails

/-! ## The comparator -/

/-- The two-key order described by the spec: directories before files,
names ascending within the same kind. -/
def nodeOrder (a b : FileNode) : Prop :=
  (a.is_directory = true ∧ b.is_directory = false) ∨
    (a.is_directory = b.is_directory ∧ a.name ≤ b.name)

theorem bnot_beq_gt (c : Ordering) : (!(c == Ordering.gt)) = true ↔ c ≠ Ordering.gt := by
  cases c <;> decide

theorem compare_gt_beq_false_iff (x y : String) :
    ((compare x y == Ordering.gt) = false) ↔ x ≤ y := by
  rw [← compare_le_iff_le]
  cases compare x y <;> decide

theorem nodeLe_iff (a b : FileNode) : nodeLe a b = true ↔ nodeOrder a b := by
  obtain ⟨na, pa, da, ca⟩ := a
  obtain ⟨nb, pb, db, cb⟩ := b
  cases da <;> cases db <;>
    simp [nodeLe, nodeCmp, nodeOrder, FileNode.is_directory, FileNode.name,
      compare_gt_beq_false_iff] <;> decide

theorem nodeLe_trans {a b c : FileNode} (h₁ : nodeLe a b = true)
    (h₂ : nodeLe b c = true) : nodeLe a c = true := by
  rw [nodeLe_iff] at h₁ h₂ ⊢
  rcases h₁ with ⟨ha, hb⟩ | ⟨hab, hnab⟩ <;> rcases h₂ with ⟨hb', hc⟩ | ⟨hbc, hnbc⟩
  · rw [hb] at hb'; cases hb'
  · exact Or.inl ⟨ha, hbc ▸ hb⟩
  · exact Or.inl ⟨hab.trans hb', hc⟩
  · exact Or.inr ⟨hab.trans hbc, le_trans hnab hnbc⟩

theorem nodeLe_total (a b : FileNode) : (nodeLe a b || nodeLe b a) = true := by
  rw [Bool.or_eq_true, nodeLe_iff, nodeLe_iff]
  obtain ⟨na, pa, da, ca⟩ := a
  obtain ⟨nb, pb, db, cb⟩ := b
  rcases le_total na nb with h | h <;> cases da <;> cases db <;>
    simp_all [nodeOrder, FileNode.is_directory, FileNode.name]

/-! ## Sorting lemmas -/

theorem sortNodes_of_sorted {l : List FileNode}
    (h : l.Pairwise (fun a b => nodeLe a b = true)) : sortNodes l = l :=
  List.mergeSort_of_sorted h

theorem sortNodes_sorted (l : List FileNode) :
    (sortNodes l).Pairwise (fun a b => nodeLe a b = true) :=
  @List.sorted_mergeSort FileNode nodeLe
    (fun _ _ _ h₁ h₂ => nodeLe_trans h₁ h₂) (fun a b => nodeLe_total a b) l

theorem sortNodes_perm (l : List FileNode) : (sortNodes l).Perm l :=
  List.mergeSort_perm l nodeLe

theorem mem_sortNodes {a : FileNode} {l : List FileNode} :
    a ∈ sortNodes l ↔ a ∈ l :=
  List.mem_mergeSort

/-! ## Recursive invariants of the produced trees -/

/-- One level is sorted: each adjacent pair respects the comparator. -/
def sortedLevel : List FileNode → Bool
  | [] => true
  | [_] => true
  | a :: b :: rest => nodeLe a b && sortedLevel (b :: rest)

mutual

/-- Every level strictly below this node is sorted. -/
def nodeTreeSorted : FileNode → Bool
  | FileNode.mk _ _ _ none => true
  | FileNode.mk _ _ _ (some cs) => sortedLevel cs && forestTreeSorted cs

/-- Every level strictly below any node of the forest is sorted. -/
def forestTreeSorted : List FileNode → Bool
  | [] => true
  | n :: rest => nodeTreeSorted n && forestTreeSorted rest

end

theorem sortedLevel_iff_pairwiseLe :
    ∀ l : List FileNode, sortedLevel l = true ↔ l.Pairwise (fun a b => nodeLe a b = true)
  | [] => by simp [sortedLevel]
  | [a] => by simp [sortedLevel]
  | a :: b :: rest => by
    have ih := sortedLevel_iff_pairwiseLe (b :: rest)
    rw [sortedLevel, Bool.and_eq_true, ih]
    constructor
    · rintro ⟨h₁, h₂⟩
      refine List.Pairwise.cons ?_ h₂
      intro x hx
      rcases List.mem_cons.mp hx with rfl | hx'
      · exact h₁
      · rcases List.pairwise_cons.mp h₂ with ⟨hb, _⟩
        exact nodeLe_trans h₁ (hb x hx')
    · intro hp
      rcases List.pairwise_cons.mp hp with ⟨ha, hp'⟩
      exact ⟨ha b (by simp), hp'⟩

theorem sortedLevel_iff_pairwise (l : List FileNode) :
    sortedLevel l = true ↔ l.Pairwise nodeOrder := by
  rw [sortedLevel_iff_pairwiseLe]
  constructor
  · exact fun h => h.imp (fun hab => (nodeLe_iff _ _).mp hab)
  · exact fun h => h.imp (fun hab => (nodeLe_iff _ _).mpr hab)

theorem forestTreeSorted_iff (l : List FileNode) :
    forestTreeSorted l = true ↔ ∀ n ∈ l, nodeTreeSorted n = true := by
  induction l with
  | nil => simp [forestTreeSorted]
  | cons a t ih => rw [forestTreeSorted, Bool.and_eq_true, ih]; simp

/-! ## Inversion lemmas for the traversal -/

theorem except_bind_ok {α β : Type} {x : Except String α} {f : α → Except String β} {b : β} :
    (x >>= f) = Except.ok b ↔ ∃ a, x = Except.ok a ∧ f a = Except.ok b := by
  cases x <;> simp [Bind.bind, Except.bind]

/-- The children computed for a directory entry named `n` with listing `lst`. -/
def dirChildren (rb cur : List String) (n : String) (lst : Option (List Entry)) :
    List FileNode :=
  if is_ignored n then []
  else
    match buildDir rb (cur ++ [n]) lst with
    | Except.ok cs => sortNodes cs
    | Except.error _ => []

theorem entryNode_dir (rb cur : List String) (n : String) (lst : Option (List Entry)) :
    entryNode rb cur (Entry.dir n lst) =
      Except.ok (FileNode.mk n (relPath rb (cur ++ [n]) n) true
        (some (dirChildren rb cur n lst))) := by
  rw [entryNode, dirChildren]

theorem processEntries_cons_ok {rb cur : List String} {e : Entry} {rest : List Entry}
    {nodes : List FileNode} :
    processEntries rb cur (e :: rest) = Except.ok nodes ↔
      ∃ node ns, entryNode rb cur e = Except.ok node ∧
        processEntries rb cur rest = Except.ok ns ∧ nodes = node :: ns := by
  cases h₁ : entryNode rb cur e <;> cases h₂ : processEntries rb cur rest <;>
    simp [processEntries, h₁, h₂, Bind.bind, Except.bind, Pure.pure, Except.pure, eq_comm]

theorem buildDir_some_ok {rb cur : List String} {es : List Entry} {nodes : List FileNode} :
    buildDir rb cur (some es) = Except.ok nodes ↔
      ∃ ns, processEntries rb cur es = Except.ok ns ∧ nodes = sortNodes ns := by
  cases h : processEntries rb cur es <;>
    simp [buildDir, h, Bind.bind, Except.bind, Pure.pure, Except.pure, eq_comm]

theorem buildDir_sorted (root : List String) :
    ∀ cur lst nodes, buildDir root cur lst = Except.ok nodes →
      nodes.Pairwise (fun a b => nodeLe a b = true) ∧ forestTreeSorted nodes = true := by
  refine buildDir.induct root
    (fun cur e => ∀ node, entryNode root cur e = Except.ok node →
      nodeTreeSorted node = true)
    (fun cur lst => ∀ nodes, buildDir root cur lst = Except.ok nodes →
      nodes.Pairwise (fun a b => nodeLe a b = true) ∧ forestTreeSorted nodes = true)
    (fun cur es => ∀ nodes, processEntries root cur es = Except.ok nodes →
      forestTreeSorted nodes = true)
    ?_ ?_ ?_ ?_ ?_ ?_ ?_ ?_
  · intro cur node h
    simp [entryNode] at h
  · intro cur m node h
    simp [entryNode] at h
  · intro cur n node h
    simp [entryNode] at h
    subst h
    simp [nodeTreeSorted]
  · intro cur n lst IH node h
    rw [entryNode_dir] at h
    simp at h
    subst h
    rw [nodeTreeSorted, Bool.and_eq_true]
    unfold dirChildren
    by_cases hig : is_ignored n
    · simp [hig, sortedLevel, forestTreeSorted]
    · simp only [hig, if_false]
      cases hb : buildDir root (cur ++ [n]) lst with
      | error e => simp [sortedLevel, forestTreeSorted]
      | ok cs =>
        obtain ⟨hp, hf⟩ := IH cs hb
        constructor
        · exact (sortedLevel_iff_pairwiseLe _).mpr (sortNodes_sorted cs)
        · rw [forestTreeSorted_iff]
          intro x hx
          exact (forestTreeSorted_iff cs).mp hf x (mem_sortNodes.mp hx)
  · intro cur nodes h
    simp [buildDir] at h
  · intro cur entries IH nodes h
    rw [buildDir_some_ok] at h
    obtain ⟨ns, hpe, rfl⟩ := h
    refine ⟨sortNodes_sorted ns, ?_⟩
    rw [forestTreeSorted_iff]
    intro x hx
    exact (forestTreeSorted_iff ns).mp (IH ns hpe) x (mem_sortNodes.mp hx)
  · intro cur nodes h
    simp [processEntries] at h
    subst h
    rfl
  · intro cur e rest IH1 IH2 nodes h
    rw [processEntries_cons_ok] at h
    obtain ⟨node, ns, h₁, h₂, rfl⟩ := h
    rw [forestTreeSorted, Bool.and_eq_true]
    exact ⟨IH1 node h₁, IH2 ns h₂⟩

/-- C2: at every level of the tree returned by `get_project_tree`, including
the root level, directory nodes come before file nodes and names ascend
within the same kind (the order `nodeOrder`); the recursive invariant
`forestTreeSorted` states the same, via `sortedLevel_iff_pairwise`, for the
children sequence of every directory node at every nesting depth. -/
theorem get_project_tree_sorted {root : List String} {ex : Bool}
    {listing : Option (List Entry)} {nodes : List FileNode}
    (h : get_project_tree root ex listing = Except.ok nodes) :
    nodes.Pairwise nodeOrder ∧ forestTreeSorted nodes = true := by
  unfold get_project_tree at h
  split at h
  · cases h
  · have hm := buildDir_sorted root root listing nodes h
    exact ⟨(hm.1).imp (fun hab => (nodeLe_iff _ _).mp hab), hm.2⟩

theorem sortNodes_idem (l : List FileNode) : sortNodes (sortNodes l) = sortNodes l :=
  sortNodes_of_sorted (sortNodes_sorted l)

/-- A sample project: root `r` holding `src/` (with `a.ts`, `b.ts`) and
`main.rs`, fully evaluated. -/
theorem evalSampleTree :
    get_project_tree ["r"] true
      (some [Entry.dir "src" (some [Entry.file "a.ts", Entry.file "b.ts"]),
        Entry.file "main.rs"]) =
    Except.ok
      [FileNode.mk "src" "/src" true
        (some [FileNode.mk "a.ts" "/src/a.ts" false none,
          FileNode.mk "b.ts" "/src/b.ts" false none]),
        FileNode.mk "main.rs" "/main.rs" false none] := by
  simp [get_project_tree, buildDir, processEntries, entryNode, relPath, stripRoot,
    joinPath, Except.bind, Bind.bind, Pure.pure, Except.pure, is_ignored, sortNodes_idem]
  rw [sortNodes_of_sorted (by decide), sortNodes_of_sorted (by decide)]
  rfl

/-- Witness for C2 on the sample tree. -/
theorem get_project_tree_sorted_witness :
    ([FileNode.mk "src" "/src" true
        (some [FileNode.mk "a.ts" "/src/a.ts" false none,
          FileNode.mk "b.ts" "/src/b.ts" false none]),
        FileNode.mk "main.rs" "/main.rs" false none].Pairwise nodeOrder) ∧
      forestTreeSorted
        [FileNode.mk "src" "/src" true
          (some [FileNode.mk "a.ts" "/src/a.ts" false none,
            FileNode.mk "b.ts" "/src/b.ts" false none]),
          FileNode.mk "main.rs" "/main.rs" false none] = true :=
  get_project_tree_sorted evalSampleTree

/-! ## Path invariants (C5) -/

mutual

/-- The node's `path` is `/`-joined from the root-relative components, and
the same holds below it. -/
def nodePathOk (rel : List String) : FileNode → Bool
  | FileNode.mk n p _ none => p == "/" ++ joinPath (rel ++ [n])
  | FileNode.mk n p _ (some cs) =>
      (p == "/" ++ joinPath (rel ++ [n])) && forestPathOk (rel ++ [n]) cs

/-- `nodePathOk` for every node of the forest. -/
def forestPathOk (rel : List String) : List FileNode → Bool
  | [] => true
  | n :: rest => nodePathOk rel n && forestPathOk rel rest

end

theorem forestPathOk_iff (rel : List String) (l : List FileNode) :
    forestPathOk rel l = true ↔ ∀ n ∈ l, nodePathOk rel n = true := by
  induction l with
  | nil => simp [forestPathOk]
  | cons a t ih => rw [forestPathOk, Bool.and_eq_true, ih]; simp

theorem stripRoot_append : ∀ xs ys : List String, stripRoot xs (xs ++ ys) = some ys
  | [], _ => rfl
  | x :: xs, ys => by simp [stripRoot, stripRoot_append xs ys]

theorem relPath_append (root rel : List String) (n : String) :
    relPath root (root ++ (rel ++ [n])) n = "/" ++ joinPath (rel ++ [n]) := by
  rw [relPath, stripRoot_append]

theorem buildDir_paths (root : List String) :
    ∀ cur lst, ∀ rel, cur = root ++ rel → ∀ nodes,
      buildDir root cur lst = Except.ok nodes → forestPathOk rel nodes = true := by
  refine buildDir.induct root
    (fun cur e => ∀ rel, cur = root ++ rel → ∀ node,
      entryNode root cur e = Except.ok node → nodePathOk rel node = true)
    (fun cur lst => ∀ rel, cur = root ++ rel → ∀ nodes,
      buildDir root cur lst = Except.ok nodes → forestPathOk rel nodes = true)
    (fun cur es => ∀ rel, cur = root ++ rel → ∀ nodes,
      processEntries root cur es = Except.ok nodes → forestPathOk rel nodes = true)
    ?_ ?_ ?_ ?_ ?_ ?_ ?_ ?_
  · intro cur rel hrel node h
    simp [entryNode] at h
  · intro cur m rel hrel node h
    simp [entryNode] at h
  · intro cur n rel hrel node h
    simp [entryNode] at h
    subst h
    subst hrel
    simp [nodePathOk, relPath_append]
  · intro cur n lst IH rel hrel node h
    rw [entryNode_dir] at h
    simp at h
    subst h
    subst hrel
    rw [nodePathOk, Bool.and_eq_true]
    refine ⟨by simp [relPath_append], ?_⟩
    unfold dirChildren
    by_cases hig : is_ignored n
    · simp [hig, forestPathOk]
    · simp only [hig, if_false]
      cases hb : buildDir root ((root ++ rel) ++ [n]) lst with
      | error e => simp [forestPathOk]
      | ok cs =>
        have hf := IH (rel ++ [n]) (by rw [List.append_assoc]) cs hb
        rw [forestPathOk_iff]
        intro x hx
        exact (forestPathOk_iff _ cs).mp hf x (mem_sortNodes.mp hx)
  · intro cur rel hrel nodes h
    simp [buildDir] at h
  · intro cur entries IH rel hrel nodes h
    rw [buildDir_some_ok] at h
    obtain ⟨ns, hpe, rfl⟩ := h
    rw [forestPathOk_iff]
    intro x hx
    exact (forestPathOk_iff rel ns).mp (IH rel hrel ns hpe) x (mem_sortNodes.mp hx)
  · intro cur rel hrel nodes h
    simp [processEntries] at h
    subst h
    rfl
  · intro cur e rest IH1 IH2 rel hrel nodes h
    rw [processEntries_cons_ok] at h
    obtain ⟨node, ns, h₁, h₂, rfl⟩ := h
    rw [forestPathOk, Bool.and_eq_true]
    exact ⟨IH1 rel hrel node h₁, IH2 rel hrel ns h₂⟩

/-- C5: every node's `path` equals `/` followed by the `/`-joined components
of its location relative to the supplied root (so in particular it starts
with `/` and uses `/` as the separator at every level); and whenever the
prefix strip fails, `relPath` falls back to `/` + the bare entry name. -/
theorem get_project_tree_paths {root : List String} {ex : Bool}
    {listing : Option (List Entry)} {nodes : List FileNode}
    (h : get_project_tree root ex listing = Except.ok nodes) :
    forestPathOk [] nodes = true ∧
      ∀ rb p n, stripRoot rb p = none → relPath rb p n = "/" ++ n := by
  refine ⟨?_, fun rb p n hn => by rw [relPath, hn]⟩
  unfold get_project_tree at h
  split at h
  · cases h
  · exact buildDir_paths root root listing [] (by simp) nodes h

/-- Witness for C5 on the sample tree. -/
theorem get_project_tree_paths_witness :
    forestPathOk []
      [FileNode.mk "src" "/src" true
        (some [FileNode.mk "a.ts" "/src/a.ts" false none,
          FileNode.mk "b.ts" "/src/b.ts" false none]),
        FileNode.mk "main.rs" "/main.rs" false none] = true ∧
      ∀ rb p n, stripRoot rb p = none → relPath rb p n = "/" ++ n :=
  get_project_tree_paths evalSampleTree

/-! ## Children-shape invariant (C6) -/

mutual

/-- `children` is present exactly when the node is a directory, recursively. -/
def nodeShapeOk : FileNode → Bool
  | FileNode.mk _ _ d none => !d
  | FileNode.mk _ _ d (some cs) => d && forestShapeOk cs

/-- `nodeShapeOk` for every node of the forest. -/
def forestShapeOk : List FileNode → Bool
  | [] => true
  | n :: rest => nodeShapeOk n && forestShapeOk rest

end

theorem forestShapeOk_iff (l : List FileNode) :
    forestShapeOk l = true ↔ ∀ n ∈ l, nodeShapeOk n = true := by
  induction l with
  | nil => simp [forestShapeOk]
  | cons a t ih => rw [forestShapeOk, Bool.and_eq_true, ih]; simp

theorem nodeShapeOk_isSome {n : FileNode} (h : nodeShapeOk n = true) :
    n.children.isSome = n.is_directory := by
  obtain ⟨nm, p, d, c⟩ := n
  cases c <;> cases d <;>
    simp_all [nodeShapeOk, FileNode.children, FileNode.is_directory]

theorem buildDir_shape (root : List String) :
    ∀ cur lst nodes, buildDir root cur lst = Except.ok nodes →
      forestShapeOk nodes = true := by
  refine buildDir.induct root
    (fun cur e => ∀ node, entryNode root cur e = Except.ok node →
      nodeShapeOk node = true)
    (fun cur lst => ∀ nodes, buildDir root cur lst = Except.ok nodes →
      forestShapeOk nodes = true)
    (fun cur es => ∀ nodes, processEntries root cur es = Except.ok nodes →
      forestShapeOk nodes = true)
    ?_ ?_ ?_ ?_ ?_ ?_ ?_ ?_
  · intro cur node h
    simp [entryNode] at h
  · intro cur m node h
    simp [entryNode] at h
  · intro cur n node h
    simp [entryNode] at h
    subst h
    simp [nodeShapeOk]
  · intro cur n lst IH node h
    rw [entryNode_dir] at h
    simp at h
    subst h
    rw [nodeShapeOk, Bool.and_eq_true]
    refine ⟨rfl, ?_⟩
    unfold dirChildren
    by_cases hig : is_ignored n
    · simp [hig, forestShapeOk]
    · simp only [hig, if_false]
      cases hb : buildDir root (cur ++ [n]) lst with
      | error e => simp [forestShapeOk]
      | ok cs =>
        have hf := IH cs hb
        rw [forestShapeOk_iff]
        intro x hx
        exact (forestShapeOk_iff cs).mp hf x (mem_sortNodes.mp hx)
  · intro cur nodes h
    simp [buildDir] at h
  · intro cur entries IH nodes h
    rw [buildDir_some_ok] at h
    obtain ⟨ns, hpe, rfl⟩ := h
    rw [forestShapeOk_iff]
    intro x hx
    exact (forestShapeOk_iff ns).mp (IH ns hpe) x (mem_sortNodes.mp hx)
  · intro cur nodes h
    simp [processEntries] at h
    subst h
    rfl
  · intro cur e rest IH1 IH2 nodes h
    rw [processEntries_cons_ok] at h
    obtain ⟨node, ns, h₁, h₂, rfl⟩ := h
    rw [forestShapeOk, Bool.and_eq_true]
    exact ⟨IH1 node h₁, IH2 ns h₂⟩

/-- C6: in every tree returned by `get_project_tree`, a node carries a
`children` sequence (possibly empty) exactly when `isDirectory` is true —
recursively at every depth, and in particular `children.isSome` coincides
with `isDirectory` for the top-level nodes. -/
theorem get_project_tree_shape {root : List String} {ex : Bool}
    {listing : Option (List Entry)} {nodes : List FileNode}
    (h : get_project_tree root ex listing = Except.ok nodes) :
    forestShapeOk nodes = true ∧
      ∀ n ∈ nodes, n.children.isSome = n.is_directory := by
  unfold get_project_tree at h
  split at h
  · cases h
  · have hs := buildDir_shape root root listing nodes h
    exact ⟨hs, fun n hn => nodeShapeOk_isSome ((forestShapeOk_iff nodes).mp hs n hn)⟩

/-- Witness for C6 on the sample tree. -/
theorem get_project_tree_shape_witness :
    forestShapeOk
      [FileNode.mk "src" "/src" true
        (some [FileNode.mk "a.ts" "/src/a.ts" false none,
          FileNode.mk "b.ts" "/src/b.ts" false none]),
        FileNode.mk "main.rs" "/main.rs" false none] = true ∧
      ∀ n ∈
        [FileNode.mk "src" "/src" true
          (some [FileNode.mk "a.ts" "/src/a.ts" false none,
            FileNode.mk "b.ts" "/src/b.ts" false none]),
          FileNode.mk "main.rs" "/main.rs" false none],
        n.children.isSome = n.is_directory :=
  get_project_tree_shape evalSampleTree

/-! ## Error behaviour (C1, C7) -/

/-- C7: calling `get_project_tree` on a path that does not exist yields the
error `"Path does not exist"`, whatever the (never consulted) directory
listing would have been — no traversal happens and no partial tree is
produced. -/
theorem get_project_tree_nonexistent (root : List String)
    (listing : Option (List Entry)) :
    get_project_tree root false listing = Except.error "Path does not exist" := by
  simp [get_project_tree]

theorem processEntries_ok_iff (rb cur : List String) :
    ∀ es : List Entry,
      (∃ ns, processEntries rb cur es = Except.ok ns) ↔ hasEntryFailure es = false
  | [] => by simp [processEntries, hasEntryFailure]
  | Entry.iterErr :: rest => by
    simp [processEntries, entryNode, hasEntryFailure, entryFails, Bind.bind, Except.bind]
  | Entry.metaErr m :: rest => by
    simp [processEntries, entryNode, hasEntryFailure, entryFails, Bind.bind, Except.bind]
  | Entry.file n :: rest => by
    have ih := processEntries_ok_iff rb cur rest
    rw [show hasEntryFailure (Entry.file n :: rest) = hasEntryFailure rest from by
      simp [hasEntryFailure, entryFails]]
    rw [← ih]
    cases h : processEntries rb cur rest <;>
      simp [processEntries, entryNode, h, Bind.bind, Except.bind, Pure.pure, Except.pure]
  | Entry.dir n lst :: rest => by
    have ih := processEntries_ok_iff rb cur rest
    rw [show hasEntryFailure (Entry.dir n lst :: rest) = hasEntryFailure rest from by
      simp [hasEntryFailure, entryFails]]
    rw [← ih]
    cases h : processEntries rb cur rest <;>
      simp [processEntries, entryNode_dir, h, Bind.bind, Except.bind, Pure.pure, Except.pure]

theorem except_error_exists {α : Type} (x : Except String α) :
    (∃ e, x = Except.error e) ↔ ¬ ∃ a, x = Except.ok a := by
  cases x <;> simp

/-- C1 (amended): the calls that abort `get_project_tree` are exactly (a) a
non-existent root, (b) a failing top-level `read_dir`, and (c) an iterator
or metadata failure on a top-level entry; in addition every failure of a
recursive `build_tree` call is absorbed: the affected directory entry still
becomes a node with an empty children sequence. -/
theorem get_project_tree_error_iff (root : List String) (ex : Bool)
    (listing : Option (List Entry)) :
    ((∃ e, get_project_tree root ex listing = Except.error e) ↔
      ex = false ∨ listing = none ∨
        ∃ es, listing = some es ∧ hasEntryFailure es = true) ∧
      ∀ cur n lst e, buildDir root (cur ++ [n]) lst = Except.error e →
        entryNode root cur (Entry.dir n lst) =
          Except.ok (FileNode.mk n (relPath root (cur ++ [n]) n) true (some [])) := by
  constructor
  · cases ex with
    | false => simp [get_project_tree]
    | true =>
      cases listing with
      | none => simp [get_project_tree, buildDir]
      | some es =>
        rw [except_error_exists]
        simp only [get_project_tree, if_neg (by decide : ¬ (true = false))]
        constructor
        · intro hne
          refine Or.inr (Or.inr ⟨es, rfl, ?_⟩)
          by_contra hf
          rw [Bool.not_eq_true] at hf
          obtain ⟨ns, hns⟩ := (processEntries_ok_iff root root es).mpr hf
          exact hne ⟨sortNodes ns, buildDir_some_ok.mpr ⟨ns, hns, rfl⟩⟩
        · rintro (h | h | ⟨es', hes, hf⟩) ⟨nodes, hok⟩
          · cases h
          · cases h
          · injection hes with h2
            subst h2
            obtain ⟨ns, hns, -⟩ := buildDir_some_ok.mp hok
            have hpe := (processEntries_ok_iff root root es).mp ⟨ns, hns⟩
            rw [hpe] at hf
            cases hf
  · intro cur n lst e hb
    rw [entryNode_dir, dirChildren]
    by_cases hig : is_ignored n
    · rw [if_pos hig]
    · rw [if_neg hig, hb]

/-- Witness for C1: a top-level iterator failure aborts, and a failing
recursive call is absorbed into empty children. -/
theorem get_project_tree_error_iff_witness :
    (∃ e, get_project_tree ["r"] true (some [Entry.iterErr]) = Except.error e) ∧
      entryNode ["r"] ([] : List String) (Entry.dir "d" none) =
        Except.ok (FileNode.mk "d" (relPath ["r"] ([] ++ ["d"]) "d") true (some [])) :=
  ⟨((get_project_tree_error_iff ["r"] true (some [Entry.iterErr])).1).mpr
      (Or.inr (Or.inr ⟨[Entry.iterErr], rfl, rfl⟩)),
    (get_project_tree_error_iff ["r"] true (some [Entry.iterErr])).2 [] "d" none
      "read_dir error" (by simp [buildDir])⟩

/-- C1 counterexample: the root exists and the top-level `read_dir`
succeeded, yet a metadata failure on a top-level entry aborts the whole
call — an abort that is neither (a) nor (b) of the claim. -/
theorem get_project_tree_metaErr_aborts :
    get_project_tree ["r"] true (some [Entry.metaErr "x"]) =
      Except.error "metadata error" ∧
      "metadata error" ≠ "Path does not exist" := by
  constructor
  · simp [get_project_tree, buildDir, processEntries, entryNode, Bind.bind, Except.bind]
  · decide

/-! ## Ignored directories (C4) -/

/-- C4: a directory entry whose name is in the fixed ignore set always
becomes a directory node with an empty children sequence, whatever its
listing holds — no recursion into it takes place; and membership in the
ignore set is exact string equality against the nine fixed names. -/
theorem ignored_dir_children_empty :
    (∀ rb cur n lst, is_ignored n = true →
      entryNode rb cur (Entry.dir n lst) =
        Except.ok (FileNode.mk n (relPath rb (cur ++ [n]) n) true (some []))) ∧
      ∀ n, is_ignored n = true ↔
        (n = "node_modules" ∨ n = ".git" ∨ n = "target" ∨ n = "dist" ∨
          n = "build" ∨ n = ".maker" ∨ n = "__pycache__" ∨ n = "venv" ∨
          n = ".vscode") := by
  constructor
  · intro rb cur n lst hig
    rw [entryNode_dir, dirChildren, if_pos hig]
  · intro n
    simp only [is_ignored, Bool.or_eq_true, beq_iff_eq]
    tauto

/-- Witness for C4: `node_modules` with a non-empty listing still comes back
with empty children. -/
theorem ignored_dir_children_empty_witness :
    entryNode ["r"] ["r"] (Entry.dir "node_modules" (some [Entry.file "x"])) =
      Except.ok (FileNode.mk "node_modules" "/node_modules" true (some [])) := by
  have h := ignored_dir_children_empty.1 ["r"] ["r"] "node_modules"
    (some [Entry.file "x"]) (by decide)
  rw [h]
  rfl

/-! ## The spec's worked example (C3) -/

/-- C3 (amended): on the worked example — root with `src/` (holding `a.ts`
and `B.ts`), `node_modules/` (non-empty), `readme.md` — the output order is
`node_modules` (children `[]`), `src`, `readme.md`, and `src`'s children are
`B.ts` before `a.ts`, because the ordinal string comparison puts every
uppercase letter before every lowercase letter. -/
theorem spec_example_eval :
    get_project_tree ["proj"] true
      (some [Entry.dir "node_modules" (some [Entry.file "x"]),
        Entry.dir "src" (some [Entry.file "B.ts", Entry.file "a.ts"]),
        Entry.file "readme.md"]) =
    Except.ok
      [FileNode.mk "node_modules" "/node_modules" true (some []),
        FileNode.mk "src" "/src" true
          (some [FileNode.mk "B.ts" "/src/B.ts" false none,
            FileNode.mk "a.ts" "/src/a.ts" false none]),
        FileNode.mk "readme.md" "/readme.md" false none] := by
  simp [get_project_tree, buildDir, processEntries, entryNode, relPath, stripRoot,
    joinPath, Except.bind, Bind.bind, Pure.pure, Except.pure, is_ignored, sortNodes_idem]
  rw [sortNodes_of_sorted (by decide), sortNodes_of_sorted (by decide)]
  rfl

/-- C3 counterexample: on the same example the claimed output, with `a.ts`
listed before `B.ts` inside `src`, is not what `get_project_tree` returns. -/
theorem spec_example_not_a_first :
    get_project_tree ["proj"] true
      (some [Entry.dir "node_modules" (some [Entry.file "x"]),
        Entry.dir "src" (some [Entry.file "B.ts", Entry.file "a.ts"]),
        Entry.file "readme.md"]) ≠
    Except.ok
      [FileNode.mk "node_modules" "/node_modules" true (some []),
        FileNode.mk "src" "/src" true
          (some [FileNode.mk "a.ts" "/src/a.ts" false none,
            FileNode.mk "B.ts" "/src/B.ts" false none]),
        FileNode.mk "readme.md" "/readme.md" false none] := by
  have he :
      get_project_tree ["proj"] true
        (some [Entry.dir "node_modules" (some [Entry.file "x"]),
          Entry.dir "src" (some [Entry.file "B.ts", Entry.file "a.ts"]),
          Entry.file "readme.md"]) =
      Except.ok
        [FileNode.mk "node_modules" "/node_modules" true (some []),
          FileNode.mk "src" "/src" true
            (some [FileNode.mk "B.ts" "/src/B.ts" false none,
              FileNode.mk "a.ts" "/src/a.ts" false none]),
          FileNode.mk "readme.md" "/readme.md" false none] := by
    simp [get_project_tree, buildDir, processEntries, entryNode, relPath, stripRoot,
      joinPath, Except.bind, Bind.bind, Pure.pure, Except.pure, is_ignored, sortNodes_idem]
    rw [sortNodes_of_sorted (by decide), sortNodes_of_sorted (by decide)]
    rfl
  rw [he]
  intro h
  simp at h

/-! ## Git status (C8) -/

/-- The `GitStatus` struct, with `usize` counters as `Nat`. -/
structure GitStatus where
  is_repo : Bool
  current_branch : String
  is_dirty : Bool
  has_remote : Bool
  behind : Nat
  ahead : Nat
deriving Repr, DecidableEq

/-- `GitStatus::default()`. -/
def gitStatusDefault : GitStatus :=
  { is_repo := false, current_branch := "", is_dirty := false,
    has_remote := false, behind := 0, ahead := 0 }

/-- The head reference as `get_git_status` consumes it: `shorthand()`,
`name()`, and `target()`. -/
structure RHead where
  shorthand : Option String
  name : Option String
  target : Option Nat

/-- A local branch as consumed: `upstream()` either fails (`none`) or
yields a reference whose `get().target()` is the carried `Option Nat`. -/
structure RBranch where
  upstream : Option (Option Nat)

/-- The libgit2 environment `get_git_status` queries: each field is the
outcome of the corresponding repository call (oids as `Nat`). -/
structure Repo where
  head : Option RHead
  statusesEmpty : Option Bool
  branchUpstreamNameOk : String → Bool
  findBranch : String → Option RBranch
  graphAheadBehind : Nat → Nat → Option (Nat × Nat)

/-- `get_git_status`: `none` models `Repository::open` failing.  The field
mutations of the Rust code become a chain of updated records. -/
def get_git_status (repo? : Option Repo) : Except String GitStatus :=
  match repo? with
  | none => Except.ok gitStatusDefault
  | some repo =>
    let s₁ : GitStatus := { gitStatusDefault with is_repo := true }
    let s₂ :=
      match repo.head with
      | some h =>
        match h.shorthand with
        | some n => { s₁ with current_branch := n }
        | none => s₁
      | none => s₁
    let s₃ :=
      match repo.statusesEmpty with
      | some isEmpty => { s₂ with is_dirty := !isEmpty }
      | none => s₂
    let s₄ :=
      match repo.head with
      | some h =>
        if repo.branchUpstreamNameOk (match h.name with | some n => n | none => "") then
          let s₅ := { s₃ with has_remote := true }
          match h.target with
          | some localOid =>
            match repo.findBranch s₅.current_branch with
            | some ub =>
              match ub.upstream with
              | some (some upOid) =>
                match repo.graphAheadBehind localOid upOid with
                | some (a, b) => { s₅ with ahead := a, behind := b }
                | none => s₅
              | some none => s₅
              | none => s₅
            | none => s₅
          | none => s₅
        else s₃
      | none => s₃
    Except.ok s₄

/-- C8: `get_git_status` returns `Ok` for every input; in particular a path
that cannot be opened as a repository yields the all-default status
(`is_repo = false`, empty branch, clean, no remote, ahead = behind = 0)
rather than an error. -/
theorem get_git_status_never_errors :
    (∀ repo?, ∃ s, get_git_status repo? = Except.ok s) ∧
      get_git_status none = Except.ok
        { is_repo := false, current_branch := "", is_dirty := false,
          has_remote := false, behind := 0, ahead := 0 } := by
  constructor
  · intro repo?
    cases repo? with
    | none => exact ⟨_, rfl⟩
    | some repo => exact ⟨_, rfl⟩
  · rfl

/-! ## Git commit (C9) -/

/-- An author/committer signature. -/
structure Sig where
  name : String
  email : String
deriving Repr, DecidableEq

/-- The libgit2 environment `git_commit` interacts with: each field is the
outcome of the corresponding fallible step.  `head = none` models
`repo.head()` failing (initial commit); `head = some t` a head whose
`target()` is `t`. -/
structure CommitRepo where
  openOk : Bool
  sigOk : Bool
  indexOk : Bool
  writeTree : Option Nat
  findTreeOk : Bool
  head : Option (Option Nat)
  findCommitOk : Bool
  commitOk : Bool

/-- The arguments passed to `repo.commit`, recording the commit that was
performed. -/
structure CommitCall where
  updateRef : Option String
  author : Sig
  committer : Sig
  message : String
  parents : List Nat
deriving Repr, DecidableEq

/-- `git_commit`: on success the Rust function returns
`Ok("Commit successful")` after calling `repo.commit(Some("HEAD"),
&signature, &signature, &message, &tree, &parents)`; the model returns that
string together with the performed `CommitCall`. -/
def git_commit (env : CommitRepo) (message : String) :
    Except String (String × CommitCall) :=
  if !env.openOk then Except.error "open error"
  else if !env.sigOk then Except.error "signature error"
  else
    let signature : Sig := ⟨"MakerCode Agent", "agent@makercode.dev"⟩
    if !env.indexOk then Except.error "index error"
    else
      match env.writeTree with
      | none => Except.error "write_tree error"
      | some _tree =>
        if !env.findTreeOk then Except.error "find_tree error"
        else
          match env.head with
          | some none => Except.error "HEAD is not pointing to a commit"
          | some (some t) =>
            if !env.findCommitOk then Except.error "find_commit error"
            else if !env.commitOk then Except.error "commit error"
            else Except.ok ("Commit successful",
              ⟨some "HEAD", signature, signature, message, [t]⟩)
          | none =>
            if !env.commitOk then Except.error "commit error"
            else Except.ok ("Commit successful",
              ⟨some "HEAD", signature, signature, message, []⟩)

/-- C9: whenever `git_commit` succeeds, the performed commit's author and
committer are both the fixed signature `MakerCode Agent
<agent@makercode.dev>`, independent of the environment and message. -/
theorem git_commit_fixed_signature {env : CommitRepo} {message : String}
    {out : String × CommitCall}
    (h : git_commit env message = Except.ok out) :
    out.2.author = ⟨"MakerCode Agent", "agent@makercode.dev"⟩ ∧
      out.2.committer = ⟨"MakerCode Agent", "agent@makercode.dev"⟩ := by
  unfold git_commit at h
  repeat' split at h
  all_goals first
    | (injection h with h'; subst h'; exact ⟨rfl, rfl⟩)
    | cases h

/-- Witness for C9 with the all-succeeding environment. -/
theorem git_commit_fixed_signature_witness :
    (("Commit successful",
        (⟨some "HEAD", ⟨"MakerCode Agent", "agent@makercode.dev"⟩,
          ⟨"MakerCode Agent", "agent@makercode.dev"⟩, "m", [5]⟩ : CommitCall)) :
        String × CommitCall).2.author =
      (⟨"MakerCode Agent", "agent@makercode.dev"⟩ : Sig) ∧
      (("Commit successful",
        (⟨some "HEAD", ⟨"MakerCode Agent", "agent@makercode.dev"⟩,
          ⟨"MakerCode Agent", "agent@makercode.dev"⟩, "m", [5]⟩ : CommitCall)) :
        String × CommitCall).2.committer =
      (⟨"MakerCode Agent", "agent@makercode.dev"⟩ : Sig) :=
  @git_commit_fixed_signature
    ⟨true, true, true, some 1, true, some (some 5), true, true⟩ "m"
    ("Commit successful",
      ⟨some "HEAD", ⟨"MakerCode Agent", "agent@makercode.dev"⟩,
        ⟨"MakerCode Agent", "agent@makercode.dev"⟩, "m", [5]⟩) rfl

/-! ## Enumeration-order independence (C10) -/

/-- The name a directory entry would contribute as a node. -/
def entryName : Entry → Option String
  | Entry.file n => some n
  | Entry.dir n _ => some n
  | _ => none

/-- The successfully-read listing of a directory entry, if any. -/
def subListing : Entry → Option (List Entry)
  | Entry.dir _ (some sub) => some sub
  | _ => none

/-- Depth-bounded equality of entries up to re-enumeration: same entry, with
every directory listing permuted arbitrarily at every level (fuel `d`
bounds the nesting depth). -/
def EntryEquivD : Nat → Entry → Entry → Prop
  | 0, _, _ => False
  | d+1, a, b =>
    match a, b with
    | Entry.iterErr, Entry.iterErr => True
    | Entry.metaErr n, Entry.metaErr m => n = m
    | Entry.file n, Entry.file m => n = m
    | Entry.dir n none, Entry.dir m none => n = m
    | Entry.dir n (some l₁), Entry.dir m (some l₂) =>
        n = m ∧ ∃ l', List.Forall₂ (EntryEquivD d) l₁ l' ∧ l'.Perm l₂
    | _, _ => False

/-- Two enumerations of the same set of entries: an elementwise
`EntryEquivD` step followed by a permutation of the sequence. -/
def ListEquivD (d : Nat) (l₁ l₂ : List Entry) : Prop :=
  ∃ l', List.Forall₂ (EntryEquivD d) l₁ l' ∧ l'.Perm l₂

/-- Distinct entry names within every directory, to depth `d`. -/
def goodNamesB : Nat → List Entry → Bool
  | 0, _ => false
  | d+1, l =>
    decide (l.filterMap entryName).Nodup &&
      l.all (fun e =>
        match subListing e with
        | some sub => goodNamesB d sub
        | none => true)

def goodSubB (d : Nat) (e : Entry) : Bool :=
  match subListing e with
  | some sub => goodNamesB d sub
  | none => true

theorem goodNamesB_succ (d : Nat) (l : List Entry) :
    goodNamesB (d+1) l =
      (decide (l.filterMap entryName).Nodup && l.all (goodSubB d)) := rfl

example : EntryEquivD 2 (Entry.file "b") (Entry.file "b") := rfl
example : goodNamesB 2 [Entry.file "a", Entry.file "b"] = true := by decide

theorem perm_any {α : Type} (f : α → Bool) {l₁ l₂ : List α} (h : l₁.Perm l₂) :
    l₁.any f = l₂.any f := by
  cases h1 : l₁.any f <;> cases h2 : l₂.any f <;> try rfl
  · rw [List.any_eq_true] at h2
    obtain ⟨x, hx, hfx⟩ := h2
    have hc : l₁.any f = true := List.any_eq_true.mpr ⟨x, h.mem_iff.mpr hx, hfx⟩
    rw [h1] at hc
    cases hc
  · rw [List.any_eq_true] at h1
    obtain ⟨x, hx, hfx⟩ := h1
    have hc : l₂.any f = true := List.any_eq_true.mpr ⟨x, h.mem_iff.mp hx, hfx⟩
    rw [h2] at hc
    cases hc

theorem sorted_perm_eq {α : Type} {r : α → α → Bool} :
    ∀ {l₁ l₂ : List α}, l₁.Perm l₂ →
      (∀ a ∈ l₁, ∀ b ∈ l₁, r a b = true → r b a = true → a = b) →
      l₁.Pairwise (fun a b => r a b = true) →
      l₂.Pairwise (fun a b => r a b = true) → l₁ = l₂
  | [], l₂, hp, _, _, _ => hp.nil_eq
  | a :: t₁, [], hp, _, _, _ => by cases hp.symm.nil_eq
  | a :: t₁, b :: t₂, hp, anti, hs₁, hs₂ => by
    have hab : a = b := by
      by_cases h : a = b
      · exact h
      · have ha2 : a ∈ b :: t₂ := hp.subset (List.mem_cons_self a t₁)
        have hb1 : b ∈ a :: t₁ := hp.symm.subset (List.mem_cons_self b t₂)
        have ha2' : a ∈ t₂ := by
          rcases List.mem_cons.mp ha2 with h' | h'
          · exact absurd h' h
          · exact h'
        have hb1' : b ∈ t₁ := by
          rcases List.mem_cons.mp hb1 with h' | h'
          · exact absurd h'.symm h
          · exact h'
        have hrab : r a b = true :=
          (List.pairwise_cons.mp hs₁).1 b hb1'
        have hrba : r b a = true :=
          (List.pairwise_cons.mp hs₂).1 a ha2'
        exact anti a (List.mem_cons_self a t₁) b hb1 hrab hrba
    subst hab
    have hp' : t₁.Perm t₂ := hp.cons_inv
    have anti' : ∀ x ∈ t₁, ∀ y ∈ t₁, r x y = true → r y x = true → x = y :=
      fun x hx y hy => anti x (List.mem_cons_of_mem a hx) y (List.mem_cons_of_mem a hy)
    rw [sorted_perm_eq hp' anti' (List.pairwise_cons.mp hs₁).2 (List.pairwise_cons.mp hs₂).2]

/-- The node built for a non-failing entry (junk on failing entries). -/
def entryNodeOk (rb cur : List String) : Entry → FileNode
  | Entry.iterErr => FileNode.mk "" "" false none
  | Entry.metaErr _ => FileNode.mk "" "" false none
  | Entry.file n => FileNode.mk n (relPath rb (cur ++ [n]) n) false none
  | Entry.dir n lst =>
      FileNode.mk n (relPath rb (cur ++ [n]) n) true (some (dirChildren rb cur n lst))

theorem entryNode_eq_ok {rb cur : List String} {e : Entry} (h : entryFails e = false) :
    entryNode rb cur e = Except.ok (entryNodeOk rb cur e) := by
  cases e with
  | iterErr => cases h
  | metaErr m => cases h
  | file n => simp [entryNode, entryNodeOk]
  | dir n lst => rw [entryNode_dir]; rfl

theorem hasEntryFailure_cons {e : Entry} {l : List Entry} :
    hasEntryFailure (e :: l) = (entryFails e || hasEntryFailure l) := by
  simp [hasEntryFailure]

theorem processEntries_eq_map (rb cur : List String) :
    ∀ l : List Entry, hasEntryFailure l = false →
      processEntries rb cur l = Except.ok (l.map (entryNodeOk rb cur))
  | [], _ => by simp [processEntries]
  | e :: rest, h => by
    rw [hasEntryFailure_cons, Bool.or_eq_false_iff] at h
    simp only [processEntries, List.map_cons]
    rw [entryNode_eq_ok h.1, processEntries_eq_map rb cur rest h.2]
    simp [Bind.bind, Except.bind, Pure.pure, Except.pure]

theorem entryNodeOk_name (rb cur : List String) {e : Entry} (h : entryFails e = false) :
    some (entryNodeOk rb cur e).name = entryName e := by
  cases e with
  | iterErr => cases h
  | metaErr m => cases h
  | file n => rfl
  | dir n lst => rfl

theorem map_name_eq_filterMap (rb cur : List String) :
    ∀ l : List Entry, hasEntryFailure l = false →
      (l.map (entryNodeOk rb cur)).map FileNode.name = l.filterMap entryName
  | [], _ => rfl
  | e :: rest, h => by
    rw [hasEntryFailure_cons, Bool.or_eq_false_iff] at h
    rw [List.map_cons, List.map_cons, List.filterMap_cons,
      ← entryNodeOk_name rb cur h.1,
      map_name_eq_filterMap rb cur rest h.2]

theorem equiv_entryFails {d : Nat} {a b : Entry} (h : EntryEquivD d a b) :
    entryFails a = entryFails b := by
  cases d with
  | zero => cases h
  | succ d =>
    cases a <;> cases b <;> try rfl
    all_goals simp [EntryEquivD] at h

theorem equiv_entryName {d : Nat} {a b : Entry} (h : EntryEquivD d a b) :
    entryName a = entryName b := by
  cases d with
  | zero => cases h
  | succ d =>
    cases a <;> cases b <;> simp only [EntryEquivD] at h
    · rfl
    · subst h; rfl
    · subst h; rfl
    · rename_i n₁ lst₁ n₂ lst₂
      cases lst₁ <;> cases lst₂ <;> simp only [EntryEquivD] at h
      · subst h; rfl
      · obtain ⟨h1, -⟩ := h; subst h1; rfl

theorem forall₂_entryFails {d : Nat} :
    ∀ {l₁ l' : List Entry}, List.Forall₂ (EntryEquivD d) l₁ l' →
      hasEntryFailure l₁ = hasEntryFailure l' := by
  intro l₁ l' h
  induction h with
  | nil => rfl
  | cons hab ht ih =>
    rw [hasEntryFailure_cons, hasEntryFailure_cons, equiv_entryFails hab, ih]

theorem forall₂_names {d : Nat} :
    ∀ {l₁ l' : List Entry}, List.Forall₂ (EntryEquivD d) l₁ l' →
      l₁.filterMap entryName = l'.filterMap entryName := by
  intro l₁ l' h
  induction h with
  | nil => rfl
  | cons hab ht ih =>
    rw [List.filterMap_cons, List.filterMap_cons, equiv_entryName hab, ih]

theorem listEquiv_entryFailure {d : Nat} {l₁ l₂ : List Entry}
    (h : ListEquivD d l₁ l₂) : hasEntryFailure l₁ = hasEntryFailure l₂ := by
  obtain ⟨l', hf, hp⟩ := h
  rw [forall₂_entryFails hf]
  exact perm_any entryFails hp

theorem buildDir_ok_iff (rb cur : List String) (l : List Entry) :
    (∃ t, buildDir rb cur (some l) = Except.ok t) ↔ hasEntryFailure l = false := by
  constructor
  · rintro ⟨t, ht⟩
    obtain ⟨ns, hns, -⟩ := buildDir_some_ok.mp ht
    exact (processEntries_ok_iff rb cur l).mp ⟨ns, hns⟩
  · intro h
    obtain ⟨ns, hns⟩ := (processEntries_ok_iff rb cur l).mpr h
    exact ⟨sortNodes ns, buildDir_some_ok.mpr ⟨ns, hns, rfl⟩⟩

theorem entryNode_congr {d : Nat}
    (IH : ∀ rb cur l₁ l₂ t, ListEquivD d l₁ l₂ → goodNamesB d l₁ = true →
      buildDir rb cur (some l₁) = Except.ok t →
      buildDir rb cur (some l₂) = Except.ok t)
    {rb cur : List String} {e₁ e₂ : Entry} (he : EntryEquivD (d+1) e₁ e₂)
    (hg : goodSubB d e₁ = true) :
    entryNode rb cur e₁ = entryNode rb cur e₂ := by
  cases e₁ <;> cases e₂ <;> simp only [EntryEquivD] at he
  · rfl
  · subst he; rfl
  · subst he; rfl
  · rename_i n₁ lst₁ n₂ lst₂
    cases lst₁ <;> cases lst₂ <;> simp only [EntryEquivD] at he
    · subst he; rfl
    · rename_i s₁ s₂
      obtain ⟨rfl, s', hf, hperm⟩ := he
      rw [entryNode_dir, entryNode_dir]
      have hgood : goodNamesB d s₁ = true := hg
      have hch : dirChildren rb cur n₁ (some s₁) = dirChildren rb cur n₁ (some s₂) := by
        rw [dirChildren, dirChildren]
        by_cases hig : is_ignored n₁
        · rw [if_pos hig, if_pos hig]
        · rw [if_neg hig, if_neg hig]
          have hequiv : ListEquivD d s₁ s₂ := ⟨s', hf, hperm⟩
          cases hb : buildDir rb (cur ++ [n₁]) (some s₁) with
          | ok cs => rw [IH rb (cur ++ [n₁]) s₁ s₂ cs hequiv hgood hb]
          | error e =>
            cases hb₂ : buildDir rb (cur ++ [n₁]) (some s₂) with
            | error e₂ => rfl
            | ok cs₂ =>
              exfalso
              have hok₂ : hasEntryFailure s₂ = false :=
                (buildDir_ok_iff rb (cur ++ [n₁]) s₂).mp ⟨cs₂, hb₂⟩
              have hok₁ : hasEntryFailure s₁ = false := by
                rw [listEquiv_entryFailure hequiv]
                exact hok₂
              obtain ⟨t', ht'⟩ := (buildDir_ok_iff rb (cur ++ [n₁]) s₁).mpr hok₁
              rw [hb] at ht'
              cases ht'
      rw [hch]

theorem processEntries_congr {d : Nat}
    (IH : ∀ rb cur l₁ l₂ t, ListEquivD d l₁ l₂ → goodNamesB d l₁ = true →
      buildDir rb cur (some l₁) = Except.ok t →
      buildDir rb cur (some l₂) = Except.ok t)
    {rb cur : List String} {l₁ l' : List Entry}
    (h : List.Forall₂ (EntryEquivD (d+1)) l₁ l') :
    l₁.all (goodSubB d) = true →
      processEntries rb cur l₁ = processEntries rb cur l' := by
  induction h with
  | nil => intro _; rfl
  | cons hab ht ih =>
    intro hg
    rw [List.all_cons, Bool.and_eq_true] at hg
    simp only [processEntries]
    rw [entryNode_congr IH hab hg.1, ih hg.2]

theorem buildDir_equiv (d : Nat) : ∀ rb cur l₁ l₂ t,
    ListEquivD d l₁ l₂ → goodNamesB d l₁ = true →
    buildDir rb cur (some l₁) = Except.ok t →
    buildDir rb cur (some l₂) = Except.ok t := by
  induction d with
  | zero =>
    intro rb cur l₁ l₂ t he hg h₁
    exact Bool.noConfusion hg
  | succ d IH =>
    intro rb cur l₁ l₂ t he hg h₁
    obtain ⟨l', hf, hp⟩ := he
    rw [goodNamesB_succ, Bool.and_eq_true, decide_eq_true_eq] at hg
    have hpe_eq : processEntries rb cur l₁ = processEntries rb cur l' :=
      processEntries_congr IH hf hg.2
    obtain ⟨ns, hns, rfl⟩ := buildDir_some_ok.mp h₁
    have hns' : processEntries rb cur l' = Except.ok ns := by
      rw [← hpe_eq]; exact hns
    have hfail' : hasEntryFailure l' = false :=
      (processEntries_ok_iff rb cur l').mp ⟨ns, hns'⟩
    have hfail₂ : hasEntryFailure l₂ = false := by
      have hx : hasEntryFailure l' = hasEntryFailure l₂ := perm_any entryFails hp
      rw [← hx]; exact hfail'
    have hns'map : processEntries rb cur l' =
        Except.ok (l'.map (entryNodeOk rb cur)) :=
      processEntries_eq_map rb cur l' hfail'
    rw [hns'] at hns'map
    injection hns'map with hnseq
    subst hnseq
    have hpe₂ : processEntries rb cur l₂ =
        Except.ok (l₂.map (entryNodeOk rb cur)) :=
      processEntries_eq_map rb cur l₂ hfail₂
    refine buildDir_some_ok.mpr ⟨l₂.map (entryNodeOk rb cur), hpe₂, ?_⟩
    have hnames' : (l'.map (entryNodeOk rb cur)).map FileNode.name =
        l'.filterMap entryName :=
      map_name_eq_filterMap rb cur l' hfail'
    have hnodup' : ((l'.map (entryNodeOk rb cur)).map FileNode.name).Nodup := by
      rw [hnames', ← forall₂_names hf]
      exact hg.1
    have hmp : (l'.map (entryNodeOk rb cur)).Perm (l₂.map (entryNodeOk rb cur)) :=
      hp.map _
    have hsp : (sortNodes (l'.map (entryNodeOk rb cur))).Perm
        (sortNodes (l₂.map (entryNodeOk rb cur))) :=
      (sortNodes_perm _).trans (hmp.trans (sortNodes_perm _).symm)
    refine sorted_perm_eq hsp ?_ (sortNodes_sorted _) (sortNodes_sorted _)
    intro a ha b hb hab hba
    have ha' : a ∈ l'.map (entryNodeOk rb cur) := mem_sortNodes.mp ha
    have hb' : b ∈ l'.map (entryNodeOk rb cur) := mem_sortNodes.mp hb
    have h1 := (nodeLe_iff a b).mp hab
    have h2 := (nodeLe_iff b a).mp hba
    have hname : a.name = b.name := by
      rcases h1 with ⟨had, hbd⟩ | ⟨hk, hle⟩ <;>
        rcases h2 with ⟨hbd', had'⟩ | ⟨hk', hle'⟩
      · rw [hbd] at hbd'; cases hbd'
      · rw [had, hbd] at hk'; cases hk'
      · rw [had', hbd'] at hk; cases hk
      · exact le_antisymm hle hle'
    exact List.inj_on_of_nodup_map hnodup' ha' hb' hname

/-- C10: the tree returned by `get_project_tree` is independent of the
order in which the filesystem enumerates directory entries: re-enumerating
the same entries (with the same metadata) at every level, with names
distinct within each directory, yields the identical node sequence —
because the two-key comparator is antisymmetric on nodes with distinct
names. -/
theorem get_project_tree_order_independent (d : Nat) {root : List String}
    {ex : Bool} {l₁ l₂ : List Entry} {t : List FileNode}
    (he : ListEquivD d l₁ l₂) (hg : goodNamesB d l₁ = true)
    (h₁ : get_project_tree root ex (some l₁) = Except.ok t) :
    get_project_tree root ex (some l₂) = Except.ok t := by
  cases ex with
  | false => simp [get_project_tree] at h₁
  | true =>
    simp only [get_project_tree, if_neg (by decide : ¬ (true = false))] at h₁ ⊢
    exact buildDir_equiv d root root l₁ l₂ t he hg h₁

/-- Witness for C10: the two enumerations of files `a`, `b` give the same
tree. -/
theorem get_project_tree_order_independent_witness :
    get_project_tree ["r"] true (some [Entry.file "b", Entry.file "a"]) =
      Except.ok [FileNode.mk "a" "/a" false none,
        FileNode.mk "b" "/b" false none] := by
  have h₁ : get_project_tree ["r"] true (some [Entry.file "a", Entry.file "b"]) =
      Except.ok [FileNode.mk "a" "/a" false none,
        FileNode.mk "b" "/b" false none] := by
    simp [get_project_tree, buildDir, processEntries, entryNode, relPath, stripRoot,
      joinPath, Except.bind, Bind.bind, Pure.pure, Except.pure]
    rw [sortNodes_of_sorted (by decide)]
    rfl
  exact get_project_tree_order_independent 1
    ⟨[Entry.file "a", Entry.file "b"],
      List.Forall₂.cons
        (show EntryEquivD 1 (Entry.file "a") (Entry.file "a") from rfl)
        (List.Forall₂.cons
          (show EntryEquivD 1 (Entry.file "b") (Entry.file "b") from rfl)
          List.Forall₂.nil),
      List.Perm.swap _ _ _⟩
    (by decide) h₁
